import Mathlib

/-!
Verification development for the `picoblog` static-site generator
(`src/lib.rs`).  The Rust source is shallowly embedded: every pure function
of the content-resolution pipeline is translated into an executable Lean
definition operating on `String` / `List Char`, keeping the source's names
where Lean allows it.  Filesystem reads, the Markdown renderer and the
YAML frontmatter engine are external collaborators; they enter the model
as explicit inputs (fields of `SourceFile`, a `render` argument), as the
spec directs.

Character classes: the Rust regexes use Unicode classes (`\p{L}`, `\p{N}`,
`\d`, `\s`).  This development classifies characters with Lean's ASCII
predicates (`Char.isAlpha`, `Char.isDigit`, `Char.isWhitespace`); every
input occurring in a claim is ASCII, where the two classifications agree.
-/

/-- A calendar date, the embedding of `chrono::NaiveDate` (year, month, day).
Ordering on valid dates is lexicographic on the three fields, which is
exactly `NaiveDate`'s order. -/
structure Date where
  y : Nat
  m : Nat
  d : Nat
deriving DecidableEq, Repr

/-- Lexicographic order on dates, matching `NaiveDate: Ord`. -/
def dateLe (a b : Date) : Bool :=
  decide (a.y < b.y ∨ (a.y = b.y ∧ (a.m < b.m ∨ (a.m = b.m ∧ a.d ≤ b.d))))

/-- Order on `Option<NaiveDate>` as in Rust: `None` sorts before `Some`. -/
def optDateLe : Option Date → Option Date → Bool
  | none, _ => true
  | some _, none => false
  | some a, some b => dateLe a b

/-- Proleptic-Gregorian leap year, as used by `chrono`. -/
def isLeapYear (y : Nat) : Bool :=
  (y % 4 = 0 && y % 100 != 0) || y % 400 = 0

/-- Number of days of month `m` of year `y` (31 for out-of-range months;
callers check `1 ≤ m ≤ 12` first). -/
def daysInMonth (y m : Nat) : Nat :=
  if m = 2 then (if isLeapYear y then 29 else 28)
  else if m = 4 ∨ m = 6 ∨ m = 9 ∨ m = 11 then 30
  else 31

/-- Calendar validity of a (year, month, day) triple, as enforced by
`NaiveDate::from_ymd_opt` (all four-digit years are inside `NaiveDate`'s
range, so no year bound is needed here). -/
def validDate (y m d : Nat) : Bool :=
  decide (1 ≤ m ∧ m ≤ 12 ∧ 1 ≤ d ∧ d ≤ daysInMonth y m)

/-- Numeric value of a string of ASCII digits. -/
def digitsVal (l : List Char) : Nat :=
  l.foldl (fun acc c => acc * 10 + (c.toNat - 48)) 0

/-- Embedding of `NaiveDate::parse_from_str(s, "%Y-%m-%d")` on the fragment
this program exercises: a four-digit year, `-`, a one- or two-digit month,
`-`, a one- or two-digit day, with the whole string consumed, followed by
calendar validation.  (Signed or longer years, which `chrono` also accepts,
never reach this call and are not modelled.) -/
def parseYmd (s : String) : Option Date :=
  let ys := s.data.takeWhile Char.isDigit
  let r1 := s.data.dropWhile Char.isDigit
  if ys.length = 4 then
    match r1 with
    | c1 :: r2 =>
      if c1 = '-' then
        let ms := r2.takeWhile Char.isDigit
        let r3 := r2.dropWhile Char.isDigit
        if ms.length = 1 ∨ ms.length = 2 then
          match r3 with
          | c2 :: r4 =>
            if c2 = '-' then
              let ds := r4.takeWhile Char.isDigit
              let r5 := r4.dropWhile Char.isDigit
              if (ds.length = 1 ∨ ds.length = 2) ∧ r5 = [] then
                if validDate (digitsVal ys) (digitsVal ms) (digitsVal ds) then
                  some ⟨digitsVal ys, digitsVal ms, digitsVal ds⟩
                else none
              else none
            else none
          | [] => none
        else none
      else none
    | [] => none
  else none

/-- Byte-lexicographic order on strings (as `List Char`), the embedding of
`str: Ord` (UTF-8 byte order coincides with code-point order). -/
def listLe : List Char → List Char → Bool
  | [], _ => true
  | _ :: _, [] => false
  | a :: as, b :: bs =>
    if a.toNat < b.toNat then true
    else if b.toNat < a.toNat then false
    else listLe as bs

/-- The string order used by `Vec<String>::sort`. -/
def strLe (s t : String) : Prop := listLe s.data t.data = true

instance : DecidableRel strLe := fun s t => by
  unfold strLe; infer_instance

/-- Embedding of `Vec::dedup`: remove consecutive repeated elements,
keeping the first of each run (worker, carrying the previous element). -/
def dedupAdjAux {α : Type} [DecidableEq α] (prev : α) : List α → List α
  | [] => []
  | b :: rest => if b = prev then dedupAdjAux prev rest else b :: dedupAdjAux b rest

/-- Embedding of `Vec::dedup`. -/
def dedupAdj {α : Type} [DecidableEq α] : List α → List α
  | [] => []
  | a :: rest => a :: dedupAdjAux a rest

/-- Embedding of `str::replace(pat, to)` on the characters of `s`: replace
every non-overlapping occurrence of `pat`, scanning left to right.  The
`fuel` argument only bounds the recursion depth (each step consumes at
least one character, so `fuel = length` always suffices; on exhausted fuel
the remaining text is kept).  The program only ever passes non-empty
patterns; for an empty `pat` this model returns the input unchanged. -/
def replaceAllAux (pat rep : List Char) : Nat → List Char → List Char
  | 0, l => l
  | _ + 1, [] => []
  | fuel + 1, c :: rest =>
    if pat ≠ [] ∧ pat.isPrefixOf (c :: rest) then
      rep ++ replaceAllAux pat rep fuel ((c :: rest).drop pat.length)
    else c :: replaceAllAux pat rep fuel rest

/-- Embedding of `str::replace`. -/
def replaceAll (s pat rep : String) : String :=
  ⟨replaceAllAux pat.data rep.data s.data.length s.data⟩

/-- Embedding of `str::starts_with`. -/
def strStarts (s p : String) : Bool := p.data.isPrefixOf s.data

/-- UTF-8 encoding of one character (list of byte values), the byte view
`urlencoding` operates on. -/
def charUtf8Bytes (c : Char) : List Nat :=
  let n := c.toNat
  if n < 0x80 then [n]
  else if n < 0x800 then [0xC0 + n / 64, 0x80 + n % 64]
  else if n < 0x10000 then [0xE0 + n / 4096, 0x80 + n / 64 % 64, 0x80 + n % 64]
  else [0xF0 + n / 262144, 0x80 + n / 4096 % 64, 0x80 + n / 64 % 64, 0x80 + n % 64]

/-- Bytes kept verbatim by `urlencoding::encode`: ASCII alphanumerics and
`-`, `.`, `_`, `~` (RFC 3986 unreserved). -/
def unreservedByte (b : Nat) : Bool :=
  (48 ≤ b && b ≤ 57) || (65 ≤ b && b ≤ 90) || (97 ≤ b && b ≤ 122) ||
    b = 45 || b = 46 || b = 95 || b = 126

/-- Upper-case hex digit of a value below 16. -/
def hexDigit (n : Nat) : Char :=
  if n < 10 then Char.ofNat (48 + n) else Char.ofNat (55 + n)

/-- Embedding of `urlencoding::encode`: percent-encode every UTF-8 byte
outside the unreserved set, upper-case hex. -/
def percentEncode (s : String) : String :=
  ⟨(s.data.flatMap charUtf8Bytes).flatMap fun b =>
    if unreservedByte b then [Char.ofNat b] else ['%', hexDigit (b / 16), hexDigit (b % 16)]⟩

/-- Embedding of `html_escape::encode_text`: escape `&`, `<`, `>`. -/
def encodeText (s : String) : String :=
  ⟨s.data.flatMap fun c =>
    if c = '&' then "&amp;".data
    else if c = '<' then "&lt;".data
    else if c = '>' then "&gt;".data
    else [c]⟩

/-- Characters allowed inside a URL body by `RE_FIRST_URL`
(`https?://[^\s()<>]+`): anything but whitespace, parentheses and angle
brackets. -/
def urlBodyChar (c : Char) : Bool :=
  !(c.isWhitespace || c = '(' || c = ')' || c = '<' || c = '>')

/-- One match attempt of `RE_FIRST_URL` at the head of `l`: the greedy `s?`
tries `https://` before `http://`, then the body must be non-empty.
Returns the matched text. -/
def matchUrlAt (l : List Char) : Option (List Char) :=
  let attempt : List Char → Option (List Char) := fun pre =>
    if pre.isPrefixOf l then
      let body := (l.drop pre.length).takeWhile urlBodyChar
      if body.isEmpty then none else some (pre ++ body)
    else none
  (attempt "https://".data).or (attempt "http://".data)

/-- Left-to-right scan for the first match of `RE_FIRST_URL`. -/
def firstUrlAux : List Char → Option String
  | [] => none
  | c :: rest =>
    match matchUrlAt (c :: rest) with
    | some m => some ⟨m⟩
    | none => firstUrlAux rest

/-- Embedding of `extract_first_url`: the first absolute `http(s)` URL in
the content. -/
def extract_first_url (content : String) : Option String :=
  firstUrlAux content.data

/-- First character of a hashtag after `#`: `\p{L}` (here: ASCII letter). -/
def isTagStart (c : Char) : Bool := c.isAlpha

/-- Continuation characters of a hashtag: `[\p{L}\p{N}-]`. -/
def tagBodyChar (c : Char) : Bool := c.isAlpha || c.isDigit || c = '-'

/-- Left-to-right non-overlapping scan of `RE_BODY_TAGS`
(`#(\p{L}[\p{L}\p{N}-]*)`), collecting the capture groups in occurrence
order; after a match the scan resumes right after the matched text.  The
`fuel` argument only bounds the recursion depth (each step consumes at
least one character, so `fuel = length` always suffices). -/
def bodyTagsAux : Nat → List Char → List String
  | 0, _ => []
  | _ + 1, [] => []
  | fuel + 1, c0 :: rest =>
    if c0 = '#' then
      match rest with
      | c :: rest2 =>
        if isTagStart c then
          let body := rest2.takeWhile tagBodyChar
          String.mk (c :: body) :: bodyTagsAux fuel (rest2.drop body.length)
        else bodyTagsAux fuel rest
      | [] => bodyTagsAux fuel []
    else bodyTagsAux fuel rest

/-- Embedding of `extract_body_tags`. -/
def extract_body_tags (content : String) : List String :=
  bodyTagsAux content.data.length content.data

/-- A quote character, either delimiter accepted by `RE_HTML_RESOURCES`
(`(?:src|href)=["'](.*?)["']`); the opening and closing quote characters
are matched independently by the regex. -/
def quoteChar (c : Char) : Bool := c = '"' || c.toNat = 39

/-- A character the lazy `(.*?)` capture may consume: neither a quote
character (which closes the capture first, by laziness) nor a newline
(`.` does not match `\n`). -/
def valueChar (c : Char) : Bool :=
  if quoteChar c then false else if c = '\n' then false else true

/-- The quoted-value part of one `RE_HTML_RESOURCES` match: a quote
character, the lazy capture, and a closing quote character.  Returns the
capture and the text after the closing quote. -/
def matchQuoted (r : List Char) : Option (List Char × List Char) :=
  match r with
  | [] => none
  | q :: r2 =>
    if quoteChar q then
      let body := r2.takeWhile valueChar
      match r2.drop body.length with
      | q2 :: rest => if quoteChar q2 then some (body, rest) else none
      | [] => none
    else none

/-- One match attempt of `RE_HTML_RESOURCES` at the head of `l`: an
`src=` or `href=` key (the two alternatives cannot both apply at one
position), then the quoted value. -/
def matchAttrAt (l : List Char) : Option (List Char × List Char) :=
  if ("src=".data).isPrefixOf l then matchQuoted (l.drop 4)
  else if ("href=".data).isPrefixOf l then matchQuoted (l.drop 5)
  else none

/-- Left-to-right non-overlapping scan of `RE_HTML_RESOURCES`, collecting
the captured attribute values in occurrence order.  The `fuel` argument
only bounds the recursion depth (each step consumes at least one
character, so `fuel = length` always suffices). -/
def resourceValuesAux : Nat → List Char → List String
  | 0, _ => []
  | _ + 1, [] => []
  | fuel + 1, c :: rest =>
    match matchAttrAt (c :: rest) with
    | some (v, after) => String.mk v :: resourceValuesAux fuel after
    | none => resourceValuesAux fuel rest

/-- All `src`/`href` attribute values of an HTML string, in order. -/
def resourceValues (html : String) : List String :=
  resourceValuesAux html.data.length html.data

/-- Characters allowed after the first one in a URL scheme
(`ALPHA / DIGIT / "+" / "-" / "."`). -/
def schemeChar (c : Char) : Bool := c.isAlphanum || c = '+' || c = '-' || c = '.'

/-- Splits a leading `scheme:` off a URL, returning the lower-cased scheme
and the remainder; `none` when the input has no valid scheme (the `url`
crate then fails with a relative-URL error). -/
def splitScheme (l : List Char) : Option (List Char × List Char) :=
  match l with
  | [] => none
  | c :: rest =>
    if c.isAlpha then
      let body := rest.takeWhile schemeChar
      match rest.drop body.length with
      | ':' :: r => some ((c :: body).map Char.toLower, r)
      | _ => none
    else none

/-- The WHATWG special schemes, whose URLs carry a host. -/
def specialScheme (s : List Char) : Bool :=
  s = "http".data || s = "https".data || s = "ws".data || s = "wss".data ||
    s = "ftp".data || s = "file".data

/-- Characters that terminate the authority section. -/
def authorityEnd (c : Char) : Bool := c = '/' || c = '?' || c = '#' || c = '\\'

/-- Code points the WHATWG host parser refuses (forbidden host / domain
code points; IDNA mapping and percent-decoding are not modelled, which
agrees with the `url` crate on every plain-ASCII hostname). -/
def forbiddenHostChar (c : Char) : Bool :=
  c.toNat < 32 || c = ' ' || c = '#' || c = '/' || c = ':' || c = '<' || c = '>' ||
    c = '?' || c = '@' || c = '[' || c = ']' || c = '\\' || c = '^' || c = '|' || c = '%'

/-- Validity of the `host[:port]` text of an authority: splits a trailing
`:port` (digits only, at most 65535, possibly empty), checks the host for
forbidden code points, and enforces `allowEmpty` for the host text.
Bracketed IPv6 literals are modelled as requiring a non-empty bracket
body. -/
def hostPortOk (allowEmpty : Bool) (l : List Char) : Bool :=
  let host := l.takeWhile (fun c => c ≠ ':')
  let rest := l.drop host.length
  let portOk :=
    match rest with
    | [] => true
    | _ :: p => p.all Char.isDigit && decide (digitsVal p ≤ 65535)
  let hostOk :=
    match host with
    | [] => allowEmpty
    | '[' :: t => decide (t.length ≥ 2) && decide (t.getLast? = some ']')
    | _ => host.all fun c => !forbiddenHostChar c
  hostOk && portOk

/-- Embedding of `url::Url::parse(s).is_ok()` on the fragment this program
exercises.  The input is trimmed of C0 controls and spaces, tabs and
newlines are removed, then a `scheme:` is required; special schemes parse
an authority whose host must be non-empty (except `file`), other schemes
accept an optional authority (`//…`, possibly with an empty host) or an
opaque path.  Userinfo before `@` is accepted and discarded. -/
def urlParseOk (s : String) : Bool :=
  let l0 := (s.data.dropWhile fun c => c.toNat ≤ 32).reverse
  let l1 := (l0.dropWhile fun c => c.toNat ≤ 32).reverse
  let l := l1.filter fun c => !(c = '\t' || c = '\n' || c = '\r')
  match splitScheme l with
  | none => false
  | some (scheme, rest) =>
    if specialScheme scheme then
      let afterSlashes := rest.dropWhile fun c => c = '/' || c = '\\'
      let auth := afterSlashes.takeWhile fun c => !authorityEnd c
      let hp := (auth.reverse.takeWhile fun c => c ≠ '@').reverse
      hostPortOk (scheme = "file".data) hp
    else
      if ("//".data).isPrefixOf rest then
        let afterSlashes := rest.drop 2
        let auth := afterSlashes.takeWhile fun c => !authorityEnd c
        let hp := (auth.reverse.takeWhile fun c => c ≠ '@').reverse
        hostPortOk true hp
      else true

/-- The single quote character (written without an apostrophe literal). -/
def quoteStr : String := ⟨[Char.ofNat 39]⟩

/-- The error text produced by `validate_resource_urls` for an offending
value: it names the originating file and the value. -/
def resourceErrMsg (sourceFile url : String) : String :=
  "Validation failed for file " ++ quoteStr ++ sourceFile ++ quoteStr ++
    ": Found relative or invalid resource link: " ++ quoteStr ++ url ++ quoteStr ++
    ". All resource links (src/href) must be absolute URLs."

/-- Whether `validate_resource_urls` skips a value without checking it:
empty values, in-page anchors (`#…`) and inline data URIs (`data:…`). -/
def skippedValue (v : String) : Bool :=
  v = "" || strStarts v "#" || strStarts v "data:"

/-- The check loop of `validate_resource_urls` over the extracted values:
the first non-skipped value that does not parse as a URL produces the
error; otherwise the scan succeeds. -/
def validateValues (sourceFile : String) : List String → Except String Unit
  | [] => .ok ()
  | v :: rest =>
    if skippedValue v then validateValues sourceFile rest
    else if urlParseOk v then validateValues sourceFile rest
    else .error (resourceErrMsg sourceFile v)

/-- Embedding of `validate_resource_urls`. -/
def validate_resource_urls (html_content : String) (source_file : String) :
    Except String Unit :=
  validateValues source_file (resourceValues html_content)

/-- The separator-to-space step of the title derivation:
`replace(['-', '_'], " ")`. -/
def sepToSpace (c : Char) : Char := if c = '-' ∨ c = '_' then ' ' else c

/-- One anchored match attempt of `RE_FILENAME_DATE`
(`^(\d{4})[^[:alnum:]](\d{2})[^[:alnum:]](\d{2})[^[:alnum:]](.+)`) on a
file stem: four digits, a non-alphanumeric separator, two digits, a
separator, two digits, a separator, then the greedy `(.+)` capture — at
least one character, not crossing a newline.  Returns the four capture
groups. -/
def filenameDateCaps (l : List Char) : Option (String × String × String × String) :=
  match l with
  | y1 :: y2 :: y3 :: y4 :: s1 :: m1 :: m2 :: s2 :: d1 :: d2 :: s3 :: rest =>
    if y1.isDigit && y2.isDigit && y3.isDigit && y4.isDigit &&
        !s1.isAlphanum && m1.isDigit && m2.isDigit && !s2.isAlphanum &&
        d1.isDigit && d2.isDigit && !s3.isAlphanum then
      let r := rest.takeWhile fun c => c ≠ '\n'
      if r.isEmpty then none
      else some (⟨[y1, y2, y3, y4]⟩, ⟨[m1, m2]⟩, ⟨[d1, d2]⟩, ⟨r⟩)
    else none
  | _ => none

/-- Embedding of `extract_metadata_from_path` on the already-extracted
file stem (the `file_stem().unwrap()` step is modelled at the call sites,
which pass a stem that exists). -/
def extract_metadata_from_stem (stem : String) : String × Option Date :=
  match filenameDateCaps stem.data with
  | some (y, m, d, titlePart) =>
    (⟨titlePart.data.map sepToSpace⟩, parseYmd (y ++ "-" ++ m ++ "-" ++ d))
  | none => (⟨stem.data.map sepToSpace⟩, none)

/-- A social media share link (`ShareLink`). -/
structure ShareLink where
  provider_name : String
  url : String
deriving DecidableEq, Repr

/-- Embedding of `generate_share_links`: for each provider, substitute the
four placeholders of its template with percent-encoded values; tags are
rendered `#tag`, inner spaces turned into underscores, then joined with
spaces before encoding. -/
def generate_share_links (providers : List (String × String))
    (url : Option String) (title text : String) (tags : List String) :
    List ShareLink :=
  let url_encoded := percentEncode (url.getD "")
  let title_encoded := percentEncode title
  let text_encoded := percentEncode text
  let tags_string :=
    String.intercalate " " (tags.map fun t => "#" ++ replaceAll t " " "_")
  let tags_encoded := percentEncode tags_string
  providers.map fun p =>
    { provider_name := p.1
      url := replaceAll (replaceAll (replaceAll (replaceAll p.2
          "{URL}" url_encoded) "{TITLE}" title_encoded)
          "{TEXT}" text_encoded) "{TAGS}" tags_encoded }

/-- Embedding of the optional YAML frontmatter fields (`Frontmatter`). -/
structure Frontmatter where
  title : Option String := none
  description : Option String := none
  tags : Option (List String) := none
  created : Option String := none
  modified : Option String := none
  link_url : Option String := none
deriving DecidableEq, Repr

/-- Modelled from the spec: the result of `gray_matter`'s
`Matter::<YAML>::parse` applied to a Markdown file's content.  The crate
is an external dependency whose code is not under `src/`; per the spec, a
malformed YAML block fails the parse (`parseErr`), while otherwise the
file splits into an optional data block and the body.  A present data
block (`Pod`) is modelled by the outcome of deserializing it into
`Frontmatter`, which fails exactly when the fields do not match the
expected shape. -/
inductive MatterOutcome where
  | parseErr
  | parsed (data : Option (Except Unit Frontmatter)) (body : String)

instance {e a : Type} [DecidableEq e] [DecidableEq a] : DecidableEq (Except e a) :=
  fun x y =>
  match x, y with
  | .error u, .error v =>
    if h : u = v then isTrue (by rw [h]) else isFalse (fun hh => h (by injection hh))
  | .ok u, .ok v =>
    if h : u = v then isTrue (by rw [h]) else isFalse (fun hh => h (by injection hh))
  | .error _, .ok _ => isFalse (fun hh => by injection hh)
  | .ok _, .error _ => isFalse (fun hh => by injection hh)

instance : DecidableEq MatterOutcome := fun a b =>
  match a, b with
  | .parseErr, .parseErr => isTrue rfl
  | .parsed d1 b1, .parsed d2 b2 =>
    if h : d1 = d2 ∧ b1 = b2 then isTrue (by rw [h.1, h.2])
    else isFalse (fun hh => by cases hh; exact h ⟨rfl, rfl⟩)
  | .parseErr, .parsed _ _ => isFalse (fun hh => by injection hh)
  | .parsed _ _, .parseErr => isFalse (fun hh => by injection hh)

/-- One discovered file, carrying everything the parser reads from the
outside world: the path (display form and file-name component), the raw
content, the frontmatter split of that content (consumed only by the
Markdown strategy), and the filesystem dates.  I/O failures
(`IoError`) are not modelled; reads are taken to succeed. -/
structure SourceFile where
  pathStr : String
  fileName : Option String
  content : String
  matter : MatterOutcome
  fsCreated : Option Date
  fsModified : Date
deriving DecidableEq

/-- Embedding of a parsed `Article`. -/
structure Article where
  title : String
  description : String
  tags : List String
  created : Option Date
  modified : Option Date
  link_url : Option String
  html_content : String
  content : String
  slug : String
  share_links : List ShareLink
deriving DecidableEq, Repr

/-- The hard per-file errors of the pipeline (`anyhow` errors in the
source, distinguished here by kind). -/
inductive ParseError where
  | unsupportedFileType (path : String)
  | frontmatterDecode
  | resourceLink (msg : String)
deriving DecidableEq, Repr

/-- A panic (process abort), as opposed to a returned error: `stemUnwrap`
is `file_stem().unwrap()` on a path without a stem, `matterUnwrap` is
`matter.parse(..).unwrap()` on a failed frontmatter parse. -/
inductive PanicKind where
  | stemUnwrap
  | matterUnwrap
deriving DecidableEq, Repr

/-- Embedding of `Path::file_stem` on the file-name component: the whole
name when it contains no dot or only a leading dot, otherwise the part
before the last dot. -/
def rustFileStem : Option String → Option String
  | none => none
  | some f =>
    let ext := f.data.reverse.takeWhile (fun c => c ≠ '.')
    if ext.length = f.data.length ∨ ext.length + 1 = f.data.length then some f
    else some ⟨f.data.take (f.data.length - ext.length - 1)⟩

/-- Embedding of `Path::extension` on the file-name component: `none` when
the name has no dot or only a leading dot, otherwise the part after the
last dot. -/
def rustExtension : Option String → Option String
  | none => none
  | some f =>
    let idx := f.data.reverse.takeWhile (fun c => c ≠ '.')
    if idx.length = f.data.length ∨ idx.length + 1 = f.data.length then none
    else some ⟨idx.reverse⟩

/-- Transposition used for `result.data.map(|d| d.deserialize()).transpose()?`. -/
def fmTranspose : Option (Except Unit Frontmatter) → Except Unit (Option Frontmatter)
  | none => .ok none
  | some (.ok fm) => .ok (some fm)
  | some (.error e) => .error e

/-- Embedding of `parse_text_file`.  A missing file stem would make
`file_stem().unwrap()` panic; otherwise the strategy cannot fail. -/
def parse_text_file (f : SourceFile)
    (share_providers : List (String × String)) :
    Except PanicKind (Except ParseError Article) :=
  match rustFileStem f.fileName with
  | none => .error .stemUnwrap
  | some stem =>
    let pathMeta := extract_metadata_from_stem stem
    let path_title := pathMeta.1
    let path_date := pathMeta.2
    let content := f.content
    let modified_date := f.fsModified
    let created_date := path_date.or f.fsCreated
    let escaped_content := encodeText content
    let html_content := "<p>" ++ replaceAll escaped_content "\n" "<br>" ++ "</p>"
    let slug := stem
    let link_url := extract_first_url content
    let tags := extract_body_tags content
    let share_links :=
      generate_share_links share_providers link_url path_title content tags
    .ok (.ok
      { title := path_title
        description := ""
        tags := tags
        html_content := html_content
        slug := slug
        content := content
        created := created_date.or (some modified_date)
        modified := some modified_date
        link_url := link_url
        share_links := share_links })

/-- The sort applied to the combined tag list in the Markdown strategy
(`Vec<String>::sort`, a stable sort in byte-lexicographic order). -/
def sortStrings (l : List String) : List String :=
  List.insertionSort strLe l

/-- Embedding of `parse_markdown_file`, parameterised by the external
Markdown renderer `render` (pulldown-cmark, treated as a pure function per
the spec).  Panics: a missing file stem, or `unwrap` of a failed
frontmatter parse.  Returned errors: a frontmatter shape mismatch
(`?` on deserialize) or a resource-link violation. -/
def parse_markdown_file (render : String → String) (f : SourceFile)
    (share_providers : List (String × String)) :
    Except PanicKind (Except ParseError Article) :=
  match rustFileStem f.fileName with
  | none => .error .stemUnwrap
  | some stem =>
    let pathMeta := extract_metadata_from_stem stem
    let path_title := pathMeta.1
    let path_date := pathMeta.2
    let file_modified_date := f.fsModified
    let file_created_date := f.fsCreated
    match f.matter with
    | .parseErr => .error .matterUnwrap
    | .parsed data markdown_content =>
      match fmTranspose data with
      | .error _ => .ok (.error .frontmatterDecode)
      | .ok fmOpt =>
        let frontmatter := fmOpt.getD {}
        let title := frontmatter.title.getD path_title
        let created_date :=
          ((frontmatter.created.bind fun d => parseYmd d).or path_date).or
            (file_created_date.or (some file_modified_date))
        let modified_date :=
          (frontmatter.modified.bind fun d => parseYmd d).getD file_modified_date
        let link_url := frontmatter.link_url.or (extract_first_url markdown_content)
        let tags :=
          dedupAdj (sortStrings (frontmatter.tags.getD [] ++
            extract_body_tags markdown_content))
        let html_content := render markdown_content
        match validate_resource_urls html_content f.pathStr with
        | .error msg => .ok (.error (.resourceLink msg))
        | .ok _ =>
          let slug := stem
          let share_links :=
            generate_share_links share_providers link_url title markdown_content tags
          .ok (.ok
            { title := title
              description := frontmatter.description.getD ""
              tags := tags
              html_content := html_content
              slug := slug
              content := markdown_content
              created := created_date
              modified := some modified_date
              link_url := link_url
              share_links := share_links })

/-- Embedding of `parse_file`: dispatch on
`path.extension().and_then(|s| s.to_str()).unwrap_or("")` (file names are
modelled as UTF-8, so `to_str` always succeeds). -/
def parse_file (render : String → String) (f : SourceFile)
    (share_providers : List (String × String)) :
    Except PanicKind (Except ParseError Article) :=
  let extension := (rustExtension f.fileName).getD ""
  if extension = "md" then parse_markdown_file render f share_providers
  else if extension = "txt" then parse_text_file f share_providers
  else .ok (.error (.unsupportedFileType f.pathStr))

/-- Descending-by-`created` comparison used by
`articles.sort_by(|a, b| b.created.cmp(&a.created))`: `artGE x y` holds
when `x` may precede `y` (its `created` is the later or equal one). -/
def artGE (x y : Article) : Prop := optDateLe y.created x.created = true

instance : DecidableRel artGE := fun x y => by
  unfold artGE; infer_instance

/-- The stable sort of the collection (Rust's `sort_by` is stable;
insertion sort realises the same specification). -/
def sortArticles (l : List Article) : List Article :=
  List.insertionSort artGE l

/-- The per-file loop of `find_and_parse_articles` over the discovered
files, in discovery order: non-`.md`/`.txt` files are not offered to
`parse_file`; a returned error skips the file; a panic aborts the run. -/
def collectArticles (render : String → String) (files : List SourceFile)
    (share_providers : List (String × String)) :
    Except PanicKind (List Article) :=
  match files with
  | [] => .ok []
  | f :: rest =>
    let ext := (rustExtension f.fileName).getD ""
    if ext = "md" ∨ ext = "txt" then
      match parse_file render f share_providers with
      | .error p => .error p
      | .ok (.error _) => collectArticles render rest share_providers
      | .ok (.ok a) =>
        (collectArticles render rest share_providers).map fun l => a :: l
    else collectArticles render rest share_providers

/-- Embedding of `find_and_parse_articles`: parse every discovered
`.md`/`.txt` file, skip per-file failures, then stable-sort the surviving
articles descending by `created`. -/
def find_and_parse_articles (render : String → String)
    (files : List SourceFile) (share_providers : List (String × String)) :
    Except PanicKind (List Article) :=
  (collectArticles render files share_providers).map sortArticles

/-- Strict version of the string order (used to state freedom from
duplicates after `dedup`). -/
def strLt (s t : String) : Prop := strLe s t ∧ s ≠ t

/-! Order-theoretic facts about the embedded comparisons. -/

theorem char_eq_of_toNat (a b : Char) (h : a.toNat = b.toNat) : a = b :=
  Char.ext (UInt32.ext h)

theorem listLe_cons_le {x y : Char} {xs ys : List Char}
    (h : listLe (x :: xs) (y :: ys) = true) : x.toNat ≤ y.toNat := by
  unfold listLe at h
  split_ifs at h with h1 h2
  · omega
  · omega

theorem listLe_cons_tail {x y : Char} {xs ys : List Char}
    (h : listLe (x :: xs) (y :: ys) = true) (he : x.toNat = y.toNat) :
    listLe xs ys = true := by
  unfold listLe at h
  split_ifs at h with h1 h2
  · omega
  · exact h

theorem listLe_cons_of_lt {x y : Char} {xs ys : List Char}
    (h : x.toNat < y.toNat) : listLe (x :: xs) (y :: ys) = true := by
  unfold listLe
  simp [h]

theorem listLe_cons_of_eq {x y : Char} {xs ys : List Char}
    (he : x.toNat = y.toNat) (h : listLe xs ys = true) :
    listLe (x :: xs) (y :: ys) = true := by
  unfold listLe
  have h1 : ¬ x.toNat < y.toNat := by omega
  have h2 : ¬ y.toNat < x.toNat := by omega
  simp [h1, h2, h]

theorem listLe_total (a b : List Char) : listLe a b = true ∨ listLe b a = true := by
  induction a generalizing b with
  | nil => left; rfl
  | cons x xs ih =>
    cases b with
    | nil => right; rfl
    | cons y ys =>
      by_cases h1 : x.toNat < y.toNat
      · exact Or.inl (listLe_cons_of_lt h1)
      · by_cases h2 : y.toNat < x.toNat
        · exact Or.inr (listLe_cons_of_lt h2)
        · have he : x.toNat = y.toNat := by omega
          cases ih ys with
          | inl h => exact Or.inl (listLe_cons_of_eq he h)
          | inr h => exact Or.inr (listLe_cons_of_eq he.symm h)

theorem listLe_trans (a b c : List Char) (h1 : listLe a b = true)
    (h2 : listLe b c = true) : listLe a c = true := by
  induction a generalizing b c with
  | nil => rfl
  | cons x xs ih =>
    cases b with
    | nil => simp [listLe] at h1
    | cons y ys =>
      cases c with
      | nil => simp [listLe] at h2
      | cons z zs =>
        have hxy := listLe_cons_le h1
        have hyz := listLe_cons_le h2
        by_cases hxz : x.toNat < z.toNat
        · exact listLe_cons_of_lt hxz
        · have hez : x.toNat = z.toNat := by omega
          have hexy : x.toNat = y.toNat := by omega
          have heyz : y.toNat = z.toNat := by omega
          exact listLe_cons_of_eq hez
            (ih ys zs (listLe_cons_tail h1 hexy) (listLe_cons_tail h2 heyz))

theorem listLe_antisymm (a b : List Char) (h1 : listLe a b = true)
    (h2 : listLe b a = true) : a = b := by
  induction a generalizing b with
  | nil =>
    cases b with
    | nil => rfl
    | cons y ys => simp [listLe] at h2
  | cons x xs ih =>
    cases b with
    | nil => simp [listLe] at h1
    | cons y ys =>
      have hxy := listLe_cons_le h1
      have hyx := listLe_cons_le h2
      have he : x.toNat = y.toNat := by omega
      have := ih ys (listLe_cons_tail h1 he) (listLe_cons_tail h2 he.symm)
      rw [char_eq_of_toNat x y he, this]

instance : IsTotal String strLe :=
  ⟨fun s t => listLe_total s.data t.data⟩

instance : IsTrans String strLe :=
  ⟨fun s t u => listLe_trans s.data t.data u.data⟩

theorem strLe_antisymm {s t : String} (h1 : strLe s t) (h2 : strLe t s) : s = t := by
  cases s; cases t
  exact congrArg String.mk (listLe_antisymm _ _ h1 h2)


theorem dedupAdjAux_sublist (l : List String) (prev : String) :
    (dedupAdjAux prev l).Sublist l := by
  induction l generalizing prev with
  | nil => simp [dedupAdjAux]
  | cons b rest ih =>
    unfold dedupAdjAux
    by_cases hb : b = prev
    · rw [if_pos hb]
      exact (ih prev).cons b
    · rw [if_neg hb]
      exact (ih b).cons₂ b

theorem dedupAdjAux_pairwise (l : List String) (prev : String)
    (h : (prev :: l).Pairwise strLe) :
    (prev :: dedupAdjAux prev l).Pairwise strLt := by
  induction l generalizing prev with
  | nil => simp [dedupAdjAux]
  | cons b rest ih =>
    obtain ⟨h1, h2⟩ := List.pairwise_cons.mp h
    unfold dedupAdjAux
    by_cases hb : b = prev
    · rw [if_pos hb]
      apply ih prev
      apply List.pairwise_cons.mpr
      refine ⟨fun x hx => h1 x (List.mem_cons_of_mem b hx), ?_⟩
      exact (List.pairwise_cons.mp h2).2
    · rw [if_neg hb]
      have htail := ih b h2
      apply List.pairwise_cons.mpr
      refine ⟨?_, htail⟩
      intro x hx
      rcases List.mem_cons.mp hx with hxb | hxd
      · subst hxb
        exact ⟨h1 x (List.mem_cons_self _ _), fun he => hb (he.symm)⟩
      · have hxrest : x ∈ rest := (dedupAdjAux_sublist rest b).mem hxd
        refine ⟨h1 x (List.mem_cons_of_mem b hxrest), ?_⟩
        intro he
        have hbx : strLt b x := (List.pairwise_cons.mp htail).1 x hxd
        have hpb : strLe prev b := h1 b (List.mem_cons_self _ _)
        rw [he] at hpb
        exact hbx.2 (strLe_antisymm hbx.1 hpb)

theorem dedupAdj_pairwise (l : List String) (h : l.Pairwise strLe) :
    (dedupAdj l).Pairwise strLt := by
  cases l with
  | nil => simp [dedupAdj]
  | cons a rest => exact dedupAdjAux_pairwise rest a h

theorem optDateLe_refl (a : Option Date) : optDateLe a a = true := by
  cases a with
  | none => rfl
  | some d => simp [optDateLe, dateLe]

theorem optDateLe_total (a b : Option Date) :
    optDateLe a b = true ∨ optDateLe b a = true := by
  cases a <;> cases b <;> simp [optDateLe, dateLe] <;> omega

theorem optDateLe_trans (a b c : Option Date) (h1 : optDateLe a b = true)
    (h2 : optDateLe b c = true) : optDateLe a c = true := by
  cases a <;> cases b <;> cases c <;> simp_all [optDateLe, dateLe] <;> omega

instance : IsTotal Article artGE :=
  ⟨fun a b => optDateLe_total b.created a.created⟩

instance : IsTrans Article artGE :=
  ⟨fun a b c h1 h2 => optDateLe_trans c.created b.created a.created h2 h1⟩

theorem artGE_of_created_eq {a b : Article} (h : a.created = b.created) :
    artGE a b := by
  unfold artGE
  rw [h]
  exact optDateLe_refl _

/-- Stability of `orderedInsert` with respect to the `created` key: the
articles carrying any fixed `created` value are, after insertion, the
inserted one (when it carries that value) followed by those already
present, in their old order. -/
theorem filter_orderedInsert (od : Option Date) (a : Article) (l : List Article) :
    (List.orderedInsert artGE a l).filter (fun x => decide (x.created = od)) =
      if a.created = od then
        a :: l.filter (fun x => decide (x.created = od))
      else l.filter (fun x => decide (x.created = od)) := by
  induction l with
  | nil =>
    by_cases ha : a.created = od <;> simp [List.orderedInsert, List.filter, ha]
  | cons b t ih =>
    rw [List.orderedInsert]
    by_cases hr : artGE a b
    · rw [if_pos hr]
      by_cases ha : a.created = od <;> simp [List.filter_cons, ha]
    · rw [if_neg hr]
      have hne : a.created ≠ b.created := fun he => hr (artGE_of_created_eq he)
      by_cases ha : a.created = od <;> by_cases hb : b.created = od
      · exact absurd (ha.trans hb.symm) hne
      · simp [List.filter_cons, ha, hb, ih]
      · simp [List.filter_cons, ha, hb, ih]
      · simp [List.filter_cons, ha, hb, ih]

/-- Stability of the collection sort: for every `created` value, filtering
the sorted collection to that value gives exactly the input's
equally-dated articles in input order. -/
theorem filter_sortArticles (l : List Article) (od : Option Date) :
    (sortArticles l).filter (fun x => decide (x.created = od)) =
      l.filter (fun x => decide (x.created = od)) := by
  induction l with
  | nil => rfl
  | cons a t ih =>
    show (List.orderedInsert artGE a (List.insertionSort artGE t)).filter _ = _
    rw [filter_orderedInsert]
    by_cases ha : a.created = od <;>
      simp [List.filter_cons, ha, ih, sortArticles] at * <;> simp [ih, ha]

/-- `str::replace` leaves a string unchanged when the pattern occurs
nowhere in it. -/
theorem replaceAllAux_id (pat rep : List Char) (fuel : Nat) (l : List Char)
    (h : ¬ pat <:+: l) : replaceAllAux pat rep fuel l = l := by
  induction fuel generalizing l with
  | zero => rfl
  | succ fuel ih =>
    cases l with
    | nil => rfl
    | cons c rest =>
      rw [replaceAllAux]
      have hnp : ¬ (pat ≠ [] ∧ pat.isPrefixOf (c :: rest) = true) := by
        rintro ⟨hne, hp⟩
        exact h (List.isPrefixOf_iff_prefix.mp hp).isInfix
      rw [if_neg hnp]
      congr 1
      apply ih
      intro hinf
      exact h (List.infix_cons hinf)

theorem replaceAll_no_occurrence (s pat rep : String) (h : ¬ pat.data <:+: s.data) :
    replaceAll s pat rep = s := by
  unfold replaceAll
  rw [replaceAllAux_id pat.data rep.data s.data.length s.data h]

/-- Soundness of the hashtag scanner: every extracted tag is a letter
followed by letters, digits and hyphens (in particular it is non-empty and
does not start with a digit or hyphen). -/
theorem bodyTagsAux_shape (fuel : Nat) (l : List Char) (t : String)
    (h : t ∈ bodyTagsAux fuel l) :
    ∃ c cs, t = ⟨c :: cs⟩ ∧ isTagStart c = true ∧ ∀ x ∈ cs, tagBodyChar x = true := by
  induction fuel generalizing l with
  | zero => simp [bodyTagsAux] at h
  | succ fuel ih =>
    cases l with
    | nil => simp [bodyTagsAux] at h
    | cons c0 rest =>
      rw [bodyTagsAux.eq_def] at h
      dsimp only at h
      by_cases h0 : c0 = '#'
      · rw [if_pos h0] at h
        cases rest with
        | nil => exact ih _ h
        | cons c rest2 =>
          dsimp only at h
          by_cases hc : isTagStart c = true
          · rw [if_pos hc] at h
            rcases List.mem_cons.mp h with h1 | h2
            · refine ⟨c, (rest2.takeWhile tagBodyChar), h1, hc, ?_⟩
              intro x hx
              exact List.mem_takeWhile_imp hx
            · exact ih _ h2
          · rw [if_neg hc] at h
            exact ih _ h
      · rw [if_neg h0] at h
        exact ih _ h

theorem extract_body_tags_shape (content : String) (t : String)
    (h : t ∈ extract_body_tags content) :
    ∃ c cs, t = ⟨c :: cs⟩ ∧ isTagStart c = true ∧ ∀ x ∈ cs, tagBodyChar x = true :=
  bodyTagsAux_shape content.data.length content.data t h

/-- The validator loop succeeds exactly when every value is either skipped
or parses as a URL. -/
theorem validateValues_ok_iff (file : String) (vs : List String) :
    validateValues file vs = .ok () ↔
      ∀ v ∈ vs, skippedValue v = true ∨ urlParseOk v = true := by
  induction vs with
  | nil => simp [validateValues]
  | cons v rest ih =>
    unfold validateValues
    by_cases h1 : skippedValue v = true
    · simp [h1, ih]
    · by_cases h2 : urlParseOk v = true
      · simp [h1, h2, ih]
      · simp only [h1, h2, if_false, Bool.false_eq_true]
        constructor
        · intro hcontr
          exact absurd hcontr (by simp)
        · intro hall
          rcases hall v (List.mem_cons_self _ _) with ha | hb
          · exact absurd ha h1
          · exact absurd hb h2

/-- The validator loop fails only with the error text naming the file and
the first offending value. -/
theorem validateValues_error (file : String) (vs : List String) (m : String)
    (h : validateValues file vs = .error m) :
    ∃ v ∈ vs, skippedValue v = false ∧ urlParseOk v = false ∧
      m = resourceErrMsg file v := by
  induction vs with
  | nil => simp [validateValues] at h
  | cons v rest ih =>
    unfold validateValues at h
    by_cases h1 : skippedValue v = true
    · rw [if_pos h1] at h
      obtain ⟨w, hw, hprops⟩ := ih h
      exact ⟨w, List.mem_cons_of_mem v hw, hprops⟩
    · rw [if_neg h1] at h
      by_cases h2 : urlParseOk v = true
      · rw [if_pos h2] at h
        obtain ⟨w, hw, hprops⟩ := ih h
        exact ⟨w, List.mem_cons_of_mem v hw, hprops⟩
      · rw [if_neg h2] at h
        refine ⟨v, List.mem_cons_self _ _, ?_, ?_, ?_⟩
        · exact Bool.not_eq_true _ ▸ Bool.of_not_eq_true h1
        · exact Bool.of_not_eq_true h2
        · injection h with hm
          exact hm.symm

/-- `takeWhile` walks through a satisfying prefix. -/
theorem takeWhile_append_all {p : Char → Bool} (l r : List Char)
    (h : ∀ c ∈ l, p c = true) :
    (l ++ r).takeWhile p = l ++ r.takeWhile p := by
  have hself : l.takeWhile p = l := List.takeWhile_eq_self_iff.mpr h
  rw [List.takeWhile_append, hself, if_pos rfl]

/-- `dropWhile` removes a satisfying prefix. -/
theorem dropWhile_append_all {p : Char → Bool} (l r : List Char)
    (h : ∀ c ∈ l, p c = true) :
    (l ++ r).dropWhile p = r.dropWhile p := by
  have hnil : l.dropWhile p = [] := List.dropWhile_eq_nil_iff.mpr h
  rw [List.dropWhile_append, hnil]
  simp

/-- On a `YYYY-MM-DD`-shaped string assembled from digit groups, the date
parser reduces to the calendar-validity check of the digits' values. -/
theorem parseYmd_digits (ys ms ds : List Char)
    (hy : ys.length = 4) (hyd : ∀ c ∈ ys, c.isDigit = true)
    (hm : ms.length = 1 ∨ ms.length = 2) (hmd : ∀ c ∈ ms, c.isDigit = true)
    (hd : ds.length = 1 ∨ ds.length = 2) (hdd : ∀ c ∈ ds, c.isDigit = true) :
    parseYmd ⟨ys ++ '-' :: (ms ++ '-' :: ds)⟩ =
      if validDate (digitsVal ys) (digitsVal ms) (digitsVal ds) = true then
        some ⟨digitsVal ys, digitsVal ms, digitsVal ds⟩
      else none := by
  have hdash : ('-').isDigit = false := by decide
  have ht1 : (ys ++ '-' :: (ms ++ '-' :: ds)).takeWhile Char.isDigit = ys := by
    rw [takeWhile_append_all ys _ hyd, List.takeWhile_cons, hdash]
    simp
  have hr1 : (ys ++ '-' :: (ms ++ '-' :: ds)).dropWhile Char.isDigit =
      '-' :: (ms ++ '-' :: ds) := by
    rw [dropWhile_append_all ys _ hyd, List.dropWhile_cons, hdash]
    simp
  have ht2 : (ms ++ '-' :: ds).takeWhile Char.isDigit = ms := by
    rw [takeWhile_append_all ms _ hmd, List.takeWhile_cons, hdash]
    simp
  have hr2 : (ms ++ '-' :: ds).dropWhile Char.isDigit = '-' :: ds := by
    rw [dropWhile_append_all ms _ hmd, List.dropWhile_cons, hdash]
    simp
  have ht3 : ds.takeWhile Char.isDigit = ds := List.takeWhile_eq_self_iff.mpr hdd
  have hr3 : ds.dropWhile Char.isDigit = [] := List.dropWhile_eq_nil_iff.mpr hdd
  unfold parseYmd
  dsimp only
  rw [ht1, hr1, hy, if_pos rfl]
  dsimp only
  rw [if_pos rfl, ht2, hr2, if_pos hm]
  dsimp only
  rw [if_pos rfl, ht3, hr3]
  rw [if_pos ⟨hd, rfl⟩]

/-- Helper: a fallback chain ending in `some` is always `some`. -/
theorem or_chain_isSome (o1 o2 o3 : Option Date) (x : Date) :
    ((o1.or o2).or (o3.or (some x))).isSome = true := by
  cases o1 <;> cases o2 <;> cases o3 <;> rfl

/-- C1: in the Markdown strategy, `created` is resolved by the precedence
chain frontmatter `created` (parsed as `YYYY-MM-DD`, an unparsable value
falls through) → filename-derived date → filesystem creation time →
filesystem modification time; it is therefore always set, and a parseable
frontmatter value wins over a filename date. -/
theorem markdown_created_precedence
    (render : String → String) (f : SourceFile)
    (ps : List (String × String)) (stem : String) (fm : Frontmatter)
    (body : String) (a : Article)
    (hstem : rustFileStem f.fileName = some stem)
    (hm : f.matter = .parsed (some (.ok fm)) body)
    (h : parse_markdown_file render f ps = .ok (.ok a)) :
    a.created =
      ((fm.created.bind fun d => parseYmd d).or
          (extract_metadata_from_stem stem).2).or
        (f.fsCreated.or (some f.fsModified)) ∧
    a.created.isSome = true ∧
    (∀ s d, fm.created = some s → parseYmd s = some d → a.created = some d) ∧
    (∀ s, fm.created = some s → parseYmd s = none →
      a.created = (extract_metadata_from_stem stem).2.or
        (f.fsCreated.or (some f.fsModified))) := by
  unfold parse_markdown_file at h
  rw [hstem] at h
  dsimp only at h
  rw [hm] at h
  dsimp only [fmTranspose] at h
  split at h
  · exact absurd h (by simp)
  · simp only [Except.ok.injEq] at h
    subst h
    dsimp only [Option.getD]
    refine ⟨rfl, or_chain_isSome _ _ _ _, ?_, ?_⟩
    · intro s d hs hd
      simp [hs, hd, Option.or]
    · intro s hs hd
      simp [hs, hd, Option.or]

/-- Witness input for the precedence claim: frontmatter
`created: 2023-01-01` and filename date `2024-10-26`. -/
def c1File : SourceFile :=
  { pathStr := "posts/2024-10-26-p.md"
    fileName := some "2024-10-26-p.md"
    content := ""
    matter := .parsed (some (.ok { created := some "2023-01-01" })) ""
    fsCreated := none
    fsModified := ⟨2021, 6, 6⟩ }

/-- The article produced from `c1File`. -/
def c1Article : Article :=
  { title := "p"
    description := ""
    tags := []
    created := some ⟨2023, 1, 1⟩
    modified := some ⟨2021, 6, 6⟩
    link_url := none
    html_content := ""
    content := ""
    slug := "2024-10-26-p"
    share_links := [] }

theorem markdown_created_precedence_witness :
    c1Article.created =
      (((some "2023-01-01").bind fun d => parseYmd d).or
          (extract_metadata_from_stem "2024-10-26-p").2).or
        (c1File.fsCreated.or (some c1File.fsModified)) ∧
    c1Article.created.isSome = true ∧
    (∀ s d, (some "2023-01-01" : Option String) = some s → parseYmd s = some d →
      c1Article.created = some d) ∧
    (∀ s, (some "2023-01-01" : Option String) = some s → parseYmd s = none →
      c1Article.created = (extract_metadata_from_stem "2024-10-26-p").2.or
        (c1File.fsCreated.or (some c1File.fsModified))) :=
  markdown_created_precedence (fun _ => "") c1File [] "2024-10-26-p"
    { created := some "2023-01-01" } "" c1Article (by decide) (by decide) (by decide)

/-- Markdown input whose frontmatter `title` and `link_url` are present
but empty. -/
def c2File : SourceFile :=
  { pathStr := "posts/2024-10-26-my-post.md"
    fileName := some "2024-10-26-my-post.md"
    content := ""
    matter := .parsed (some (.ok { title := some "", link_url := some "" }))
      "body https://b.co/x"
    fsCreated := none
    fsModified := ⟨2021, 6, 6⟩ }

/-- C2, counterexample: with frontmatter `title: ""` and `link_url: ""`
the Markdown strategy keeps the empty strings — the title does not fall
through to the filename-derived `my post` and the link does not fall
through to the body URL, refuting first-non-empty-wins resolution. -/
theorem markdown_empty_frontmatter_kept :
    (parse_markdown_file (fun _ => "") c2File []).map (Except.map Article.title) =
      .ok (.ok "") ∧
    (extract_metadata_from_stem "2024-10-26-my-post").1 = "my post" ∧
    ("" : String) ≠ "my post" ∧
    (parse_markdown_file (fun _ => "") c2File []).map (Except.map Article.link_url) =
      .ok (.ok (some "")) ∧
    extract_first_url "body https://b.co/x" = some "https://b.co/x" := by
  refine ⟨by decide, by decide, by decide, by decide, by decide⟩

/-- C2 (amended): in the Markdown strategy resolution is first-present
wins: a present frontmatter `title` or `link_url` is used even when it is
the empty string; only an absent field falls through (`title` to the
filename-derived title, `link_url` to the first absolute URL of the
body). -/
theorem markdown_first_present_wins
    (render : String → String) (f : SourceFile)
    (ps : List (String × String)) (stem : String) (fm : Frontmatter)
    (body : String) (a : Article)
    (hstem : rustFileStem f.fileName = some stem)
    (hm : f.matter = .parsed (some (.ok fm)) body)
    (h : parse_markdown_file render f ps = .ok (.ok a)) :
    a.title = fm.title.getD (extract_metadata_from_stem stem).1 ∧
    a.link_url = fm.link_url.or (extract_first_url body) := by
  unfold parse_markdown_file at h
  rw [hstem] at h
  dsimp only at h
  rw [hm] at h
  dsimp only [fmTranspose] at h
  split at h
  · exact absurd h (by simp)
  · simp only [Except.ok.injEq] at h
    subst h
    exact ⟨rfl, rfl⟩

/-- The article produced from `c2File`. -/
def c2Article : Article :=
  { title := ""
    description := ""
    tags := []
    created := some ⟨2024, 10, 26⟩
    modified := some ⟨2021, 6, 6⟩
    link_url := some ""
    html_content := ""
    content := "body https://b.co/x"
    slug := "2024-10-26-my-post"
    share_links := [⟨"P", "u=&t="⟩] }

theorem markdown_first_present_wins_witness :
    c2Article.title = (some "").getD (extract_metadata_from_stem "2024-10-26-my-post").1 ∧
    c2Article.link_url = (some "").or (extract_first_url "body https://b.co/x") :=
  markdown_first_present_wins (fun _ => "") c2File [("P", "u={URL}&t={TITLE}")]
    "2024-10-26-my-post" { title := some "", link_url := some "" }
    "body https://b.co/x" c2Article (by decide) (by decide) (by decide)

/-- Plain-text input whose body contains a repeated hashtag. -/
def c3TxtFile : SourceFile :=
  { pathStr := "notes/n.txt"
    fileName := some "n.txt"
    content := "#a #b #a"
    matter := .parsed none ""
    fsCreated := none
    fsModified := ⟨2021, 6, 6⟩ }

/-- C3, counterexample: the plain-text strategy performs no sorting or
deduplication — a body `#a #b #a` yields tags `["a", "b", "a"]`, not
`["a", "b"]`. -/
theorem text_tags_not_deduplicated :
    (parse_text_file c3TxtFile []).map (Except.map Article.tags) =
      .ok (.ok ["a", "b", "a"]) ∧
    (["a", "b", "a"] : List String) ≠ ["a", "b"] := by
  refine ⟨by decide, by decide⟩

/-- Sorting then adjacent-deduplicating a string list yields a sorted,
duplicate-free list. -/
theorem dedup_sort_sorted_nodup (l : List String) :
    (dedupAdj (sortStrings l)).Pairwise strLe ∧ (dedupAdj (sortStrings l)).Nodup := by
  have hs : (sortStrings l).Pairwise strLe := List.sorted_insertionSort strLe l
  have hlt := dedupAdj_pairwise _ hs
  exact ⟨hlt.imp (fun hab => hab.1), List.Pairwise.imp (fun hab => hab.2) hlt⟩

/-- C3 (amended): only the Markdown strategy sorts and deduplicates tags
(its tag list is lexicographically sorted and duplicate-free); the
plain-text strategy returns the body hashtags in occurrence order,
possibly with duplicates — each of them non-empty since a hashtag starts
with a letter — so `#a #b #a` yields `["a", "b", "a"]`. -/
theorem tags_resolution :
    (∀ (render : String → String) (f : SourceFile)
        (ps : List (String × String)) (a : Article),
      parse_markdown_file render f ps = .ok (.ok a) →
        a.tags.Pairwise strLe ∧ a.tags.Nodup) ∧
    (∀ (f : SourceFile) (ps : List (String × String)) (a : Article),
      parse_text_file f ps = .ok (.ok a) →
        a.tags = extract_body_tags f.content ∧ ∀ t ∈ a.tags, t ≠ "") ∧
    extract_body_tags "#a #b #a" = ["a", "b", "a"] := by
  refine ⟨?_, ?_, by decide⟩
  · intro render f ps a h
    unfold parse_markdown_file at h
    split at h
    · exact absurd h (by simp)
    · split at h
      · exact absurd h (by simp)
      · split at h
        · exact absurd h (by simp)
        · dsimp only at h
          split at h
          · exact absurd h (by simp)
          · simp only [Except.ok.injEq] at h
            subst h
            exact dedup_sort_sorted_nodup _
  · intro f ps a h
    unfold parse_text_file at h
    split at h
    · exact absurd h (by simp)
    · simp only [Except.ok.injEq] at h
      subst h
      refine ⟨rfl, ?_⟩
      intro t ht he
      obtain ⟨c, cs, hshape, _, _⟩ := extract_body_tags_shape f.content t ht
      rw [he] at hshape
      have : ([] : List Char) = c :: cs := congrArg String.data hshape
      exact absurd this (by simp)

/-- The article produced from `c3TxtFile`. -/
def c3TxtArticle : Article :=
  { title := "n"
    description := ""
    tags := ["a", "b", "a"]
    created := some ⟨2021, 6, 6⟩
    modified := some ⟨2021, 6, 6⟩
    link_url := none
    html_content := "<p>#a #b #a</p>"
    content := "#a #b #a"
    slug := "n"
    share_links := [] }

/-- Markdown input combining frontmatter tags and body hashtags. -/
def c3MdFile : SourceFile :=
  { pathStr := "posts/p.md"
    fileName := some "p.md"
    content := ""
    matter := .parsed (some (.ok { tags := some ["zeta", "b"] })) "#a #b #a"
    fsCreated := none
    fsModified := ⟨2021, 6, 6⟩ }

/-- The article produced from `c3MdFile`. -/
def c3MdArticle : Article :=
  { title := "p"
    description := ""
    tags := ["a", "b", "zeta"]
    created := some ⟨2021, 6, 6⟩
    modified := some ⟨2021, 6, 6⟩
    link_url := none
    html_content := ""
    content := "#a #b #a"
    slug := "p"
    share_links := [] }

theorem tags_resolution_witness :
    (c3MdArticle.tags.Pairwise strLe ∧ c3MdArticle.tags.Nodup) ∧
    (c3TxtArticle.tags = extract_body_tags "#a #b #a") ∧
    ("a" : String) ≠ "" :=
  ⟨tags_resolution.1 (fun _ => "") c3MdFile [] c3MdArticle (by decide),
    (tags_resolution.2.1 c3TxtFile [] c3TxtArticle (by decide)).1,
    (tags_resolution.2.1 c3TxtFile [] c3TxtArticle (by decide)).2 "a" (by decide)⟩

/-- C4, counterexample: `#2024` is not extracted as a hashtag — the first
character after `#` must be a letter (`\p{L}`), not a digit or hyphen, so
the claimed extraction of digit-initial tokens fails. -/
theorem digit_start_hashtag_not_extracted :
    extract_body_tags "#2024" = [] ∧
    extract_body_tags "#-x" = [] ∧
    ([] : List String) ≠ ["2024"] := by
  refine ⟨by decide, by decide, by decide⟩

/-- C4 (amended): hashtag extraction returns, in occurrence order, the
matches of `#` followed by a letter and then zero or more
letters/digits/hyphens (the tag being that text without the `#`): every
extracted tag is non-empty, begins with a letter, and contains only
letters, digits and hyphens; a token whose first character after `#` is a
digit or hyphen, such as `#2024`, is not extracted. -/
theorem hashtag_extraction_shape :
    (∀ (s t : String), t ∈ extract_body_tags s →
      t ≠ "" ∧
      ∃ c cs, t = ⟨c :: cs⟩ ∧ isTagStart c = true ∧
        ∀ x ∈ cs, tagBodyChar x = true) ∧
    extract_body_tags "see #foo-1 and #Bar2" = ["foo-1", "Bar2"] ∧
    extract_body_tags "#2024" = [] := by
  refine ⟨?_, by decide, by decide⟩
  intro s t ht
  obtain ⟨c, cs, hshape, hstart, hbody⟩ := extract_body_tags_shape s t ht
  refine ⟨?_, c, cs, hshape, hstart, hbody⟩
  intro he
  rw [he] at hshape
  have : ([] : List Char) = c :: cs := congrArg String.data hshape
  exact absurd this (by simp)

theorem hashtag_extraction_shape_witness :
    ("foo-1" : String) ≠ "" :=
  (hashtag_extraction_shape.1 "see #foo-1 and #Bar2" "foo-1" (by decide)).1

/-- The claim's notion of an absolute URL, following the spec's words
("scheme + authority"), for comparison with the code's check: a scheme
followed by `//` and a non-empty authority.  (This is the spec-side
definition; the code only requires `Url::parse` to succeed.) -/
def specSchemeAndAuthority (s : String) : Bool :=
  match splitScheme s.data with
  | none => false
  | some (_, rest) =>
    ("//".data).isPrefixOf rest &&
      !((rest.drop 2).takeWhile fun c => !authorityEnd c).isEmpty

/-- C5, counterexample: `foo:bar` has a scheme but no authority, so the
claim demands its rejection; the validator extracts it, does not skip it,
and still returns `Ok` because `Url::parse` accepts scheme-only URLs. -/
theorem scheme_without_authority_accepted :
    validate_resource_urls "<a href=\"foo:bar\">" "f.md" = .ok () ∧
    resourceValues "<a href=\"foo:bar\">" = ["foo:bar"] ∧
    skippedValue "foo:bar" = false ∧
    specSchemeAndAuthority "foo:bar" = false := by
  refine ⟨by decide, by decide, by decide, by decide⟩

/-- C5 (amended): the validator skips every empty, `#…` or `data:…` value;
it returns `Ok` exactly when each remaining value parses as an absolute
URL — a scheme is required, an authority only for special schemes such as
`http(s)` — and otherwise it fails with the error text naming the file and
the first offending value.  So `foo:bar` is accepted, `/local.png` and
`relative.html` are rejected with the descriptive error, and
`https://x.com/a.png`, `#top` and data URIs are accepted. -/
theorem resource_validator_characterisation :
    (∀ (html f : String), validate_resource_urls html f = .ok () ↔
      ∀ v ∈ resourceValues html, skippedValue v = true ∨ urlParseOk v = true) ∧
    (∀ (html f m : String), validate_resource_urls html f = .error m →
      ∃ v ∈ resourceValues html, skippedValue v = false ∧ urlParseOk v = false ∧
        m = resourceErrMsg f v) ∧
    validate_resource_urls
      "<img src=\"https://x.com/a.png\"><a href=\"#top\"><img src=\"data:image/png;base64,AAA\">"
      "f.md" = .ok () ∧
    urlParseOk "foo:bar" = true ∧
    validate_resource_urls "<img src=\"/local.png\">" "f.md" =
      .error (resourceErrMsg "f.md" "/local.png") ∧
    validate_resource_urls "<a href=\"relative.html\">" "f.md" =
      .error (resourceErrMsg "f.md" "relative.html") := by
  refine ⟨?_, ?_, by decide, by decide, by decide, by decide⟩
  · intro html f
    exact validateValues_ok_iff f (resourceValues html)
  · intro html f m h
    exact validateValues_error f (resourceValues html) m h

theorem resource_validator_characterisation_witness :
    validate_resource_urls "<img src=\"https://w.example/a.png\">" "w.md" = .ok () :=
  (resource_validator_characterisation.1 "<img src=\"https://w.example/a.png\">"
    "w.md").mpr (by decide)

/-- C6: the collection returned by `find_and_parse_articles` is sorted
descending by `created`, is a permutation of the successfully parsed
articles, and ties on `created` keep their input discovery order (the
sort is stable: filtering the output to any fixed `created` value gives
exactly the input's equally-dated articles in their original order). -/
theorem collection_sorted_descending_stable
    (render : String → String) (files : List SourceFile)
    (ps : List (String × String)) (pre arts : List Article)
    (hc : collectArticles render files ps = .ok pre)
    (h : find_and_parse_articles render files ps = .ok arts) :
    arts.Pairwise (fun a b => optDateLe b.created a.created = true) ∧
    arts.Perm pre ∧
    ∀ od, arts.filter (fun x => decide (x.created = od)) =
      pre.filter (fun x => decide (x.created = od)) := by
  unfold find_and_parse_articles at h
  rw [hc] at h
  simp only [Except.map, Except.ok.injEq] at h
  subst h
  refine ⟨List.sorted_insertionSort artGE pre, List.perm_insertionSort artGE pre, ?_⟩
  intro od
  exact filter_sortArticles pre od

/-- Witness inputs for the collection ordering: three dated text files. -/
def c6Files : List SourceFile :=
  [ { pathStr := "2024-01-01-a.txt", fileName := some "2024-01-01-a.txt",
      content := "", matter := .parsed none "", fsCreated := none,
      fsModified := ⟨2020, 1, 1⟩ },
    { pathStr := "2024-03-01-b.txt", fileName := some "2024-03-01-b.txt",
      content := "", matter := .parsed none "", fsCreated := none,
      fsModified := ⟨2020, 1, 1⟩ },
    { pathStr := "2024-02-01-c.txt", fileName := some "2024-02-01-c.txt",
      content := "", matter := .parsed none "", fsCreated := none,
      fsModified := ⟨2020, 1, 1⟩ } ]

/-- The article parsed from `2024-01-01-a.txt`. -/
def c6A : Article :=
  { title := "a", description := "", tags := [], created := some ⟨2024, 1, 1⟩
    modified := some ⟨2020, 1, 1⟩, link_url := none, html_content := "<p></p>"
    content := "", slug := "2024-01-01-a", share_links := [] }

/-- The article parsed from `2024-03-01-b.txt`. -/
def c6B : Article :=
  { title := "b", description := "", tags := [], created := some ⟨2024, 3, 1⟩
    modified := some ⟨2020, 1, 1⟩, link_url := none, html_content := "<p></p>"
    content := "", slug := "2024-03-01-b", share_links := [] }

/-- The article parsed from `2024-02-01-c.txt`. -/
def c6C : Article :=
  { title := "c", description := "", tags := [], created := some ⟨2024, 2, 1⟩
    modified := some ⟨2020, 1, 1⟩, link_url := none, html_content := "<p></p>"
    content := "", slug := "2024-02-01-c", share_links := [] }

theorem collection_sorted_descending_stable_witness :
    ([c6B, c6C, c6A].Pairwise fun a b => optDateLe b.created a.created = true) ∧
    [c6B, c6C, c6A].Perm [c6A, c6B, c6C] ∧
    [c6B, c6C, c6A].filter
        (fun x => decide (x.created = some ⟨2024, 3, 1⟩)) =
      [c6A, c6B, c6C].filter
        (fun x => decide (x.created = some ⟨2024, 3, 1⟩)) :=
  ⟨(collection_sorted_descending_stable (fun _ => "") c6Files [] [c6A, c6B, c6C]
      [c6B, c6C, c6A] (by decide) (by decide)).1,
    (collection_sorted_descending_stable (fun _ => "") c6Files [] [c6A, c6B, c6C]
      [c6B, c6C, c6A] (by decide) (by decide)).2.1,
    (collection_sorted_descending_stable (fun _ => "") c6Files [] [c6A, c6B, c6C]
      [c6B, c6C, c6A] (by decide) (by decide)).2.2 (some ⟨2024, 3, 1⟩)⟩

/-- A well-formed text file next to a Markdown file whose frontmatter
block is malformed YAML (its external parse fails, `matter = parseErr`). -/
def c7GoodFile : SourceFile :=
  { pathStr := "good.txt", fileName := some "good.txt", content := "hello"
    matter := .parsed none "", fsCreated := none, fsModified := ⟨2020, 1, 1⟩ }

/-- Markdown file whose frontmatter block is malformed YAML. -/
def c7BadFile : SourceFile :=
  { pathStr := "bad.md", fileName := some "bad.md", content := ""
    matter := .parseErr, fsCreated := none, fsModified := ⟨2020, 1, 1⟩ }

/-- C7, code bug: a malformed YAML frontmatter block makes
`matter.parse(&content).unwrap()` (lib.rs:225) panic, aborting the whole
run — the model returns the `matterUnwrap` panic instead of a collection —
so the failing file is not skipped and the other file's article is lost,
contrary to the documented per-file-skip policy.  (A frontmatter *shape*
mismatch, by contrast, is skipped correctly, as the second conjunct
shows.) -/
theorem malformed_frontmatter_aborts_run :
    find_and_parse_articles (fun _ => "") [c7GoodFile, c7BadFile] [] =
      .error .matterUnwrap ∧
    (find_and_parse_articles (fun _ => "")
        [c7GoodFile,
          { pathStr := "shape.md", fileName := some "shape.md", content := ""
            matter := .parsed (some (.error ())) "", fsCreated := none
            fsModified := ⟨2020, 1, 1⟩ }] []).map (List.map Article.slug) =
      .ok ["good"] := by
  refine ⟨by decide, by decide⟩

/-- A list of length four is four explicit elements. -/
theorem length_eq_four {α : Type} {l : List α} (h : l.length = 4) :
    ∃ a b c d, l = [a, b, c, d] := by
  match l with
  | [a, b, c, d] => exact ⟨a, b, c, d, rfl⟩
  | [] => simp at h
  | [_] => simp at h
  | [_, _] => simp at h
  | [_, _, _] => simp at h
  | _ :: _ :: _ :: _ :: _ :: _ =>
    simp only [List.length_cons] at h
    omega

/-- C8: the metadata extractor is total by construction; a stem of the
form `YYYY<sep>MM<sep>DD<sep>rest` (digits, single non-alphanumeric
separators, non-empty `rest`) yields the parsed calendar date of the
digits (`none` when they are not a valid date) and the title obtained
from `rest` by replacing every `-` and `_` with a space; any other stem
yields no date and the whole stem with the same replacement.  Concretely,
`2024-10-26-my-great-post` yields title `my great post` and date
2024-10-26. -/
theorem metadata_extractor_spec :
    (∀ (ys ms ds : String) (s1 s2 s3 : Char) (rest : String),
      ys.data.length = 4 → (∀ c ∈ ys.data, c.isDigit = true) →
      ms.data.length = 2 → (∀ c ∈ ms.data, c.isDigit = true) →
      ds.data.length = 2 → (∀ c ∈ ds.data, c.isDigit = true) →
      s1.isAlphanum = false → s2.isAlphanum = false → s3.isAlphanum = false →
      rest ≠ "" → (∀ c ∈ rest.data, c ≠ '\n') →
      extract_metadata_from_stem
          ⟨ys.data ++ s1 :: (ms.data ++ s2 :: (ds.data ++ s3 :: rest.data))⟩ =
        (⟨rest.data.map sepToSpace⟩,
          if validDate (digitsVal ys.data) (digitsVal ms.data)
              (digitsVal ds.data) = true then
            some ⟨digitsVal ys.data, digitsVal ms.data, digitsVal ds.data⟩
          else none)) ∧
    (∀ stem : String, filenameDateCaps stem.data = none →
      extract_metadata_from_stem stem = (⟨stem.data.map sepToSpace⟩, none)) ∧
    extract_metadata_from_stem "2024-10-26-my-great-post" =
      ("my great post", some ⟨2024, 10, 26⟩) ∧
    extract_metadata_from_stem "notes" = ("notes", none) ∧
    extract_metadata_from_stem "2024-13-01-x" = ("x", none) := by
  refine ⟨?_, ?_, by decide, by decide, by decide⟩
  · intro ys ms ds s1 s2 s3 rest hylen hyd hmlen hmd hdlen hdd hs1 hs2 hs3 hrne hrnn
    obtain ⟨y1, y2, y3, y4, hy⟩ := length_eq_four hylen
    obtain ⟨m1, m2, hm⟩ := List.length_eq_two.mp hmlen
    obtain ⟨d1, d2, hd⟩ := List.length_eq_two.mp hdlen
    have hy1 := hyd y1 (by rw [hy]; simp)
    have hy2 := hyd y2 (by rw [hy]; simp)
    have hy3 := hyd y3 (by rw [hy]; simp)
    have hy4 := hyd y4 (by rw [hy]; simp)
    have hm1 := hmd m1 (by rw [hm]; simp)
    have hm2 := hmd m2 (by rw [hm]; simp)
    have hd1 := hdd d1 (by rw [hd]; simp)
    have hd2 := hdd d2 (by rw [hd]; simp)
    have htw : rest.data.takeWhile (fun c => decide (c ≠ '\n')) = rest.data := by
      apply List.takeWhile_eq_self_iff.mpr
      intro x hx
      simp [hrnn x hx]
    have hrd : rest.data ≠ [] := by
      intro hnil
      apply hrne
      cases rest with
      | mk d => exact congrArg String.mk hnil
    unfold extract_metadata_from_stem
    rw [hy, hm, hd]
    simp only [List.cons_append, List.nil_append]
    rw [filenameDateCaps]
    simp only [hy1, hy2, hy3, hy4, hm1, hm2, hd1, hd2, hs1, hs2, hs3,
      Bool.not_false, Bool.and_self, Bool.true_and, Bool.and_true, if_true]
    rw [htw]
    rw [if_neg (by simp [hrd])]
    dsimp only
    have hself : (String.mk [y1, y2, y3, y4] ++ "-" ++ String.mk [m1, m2] ++ "-" ++
        String.mk [d1, d2]) = String.mk ([y1, y2, y3, y4] ++ '-' :: ([m1, m2] ++ '-' :: [d1, d2])) := by
      rfl
    rw [hself, parseYmd_digits [y1, y2, y3, y4] [m1, m2] [d1, d2]
      (by simp)
      (by
        intro c hc
        simp only [List.mem_cons, List.not_mem_nil, or_false] at hc
        rcases hc with rfl | rfl | rfl | rfl
        exacts [hy1, hy2, hy3, hy4])
      (by simp)
      (by
        intro c hc
        simp only [List.mem_cons, List.not_mem_nil, or_false] at hc
        rcases hc with rfl | rfl
        exacts [hm1, hm2])
      (by simp)
      (by
        intro c hc
        simp only [List.mem_cons, List.not_mem_nil, or_false] at hc
        rcases hc with rfl | rfl
        exacts [hd1, hd2])]
  · intro stem h
    unfold extract_metadata_from_stem
    rw [h]

theorem metadata_extractor_spec_witness :
    extract_metadata_from_stem
        ⟨"2024".data ++ '-' :: ("10".data ++ '-' :: ("26".data ++ '-' ::
          "my-great-post".data))⟩ =
      (⟨"my-great-post".data.map sepToSpace⟩,
        if validDate (digitsVal "2024".data) (digitsVal "10".data)
            (digitsVal "26".data) = true then
          some ⟨digitsVal "2024".data, digitsVal "10".data, digitsVal "26".data⟩
        else none) :=
  metadata_extractor_spec.1 "2024" "10" "26" '-' '-' '-' "my-great-post"
    (by decide) (by decide) (by decide) (by decide) (by decide) (by decide)
    (by decide) (by decide) (by decide) (by decide) (by decide)

/-- C9: the share-link generator is total and returns one link per
provider in provider order; each template has its placeholders substituted
with percent-encoded values (`{URL}` from the possibly-absent `link_url`,
`{TITLE}`, `{TEXT}`, and `{TAGS}` from the space-joined `#tag` rendering
with inner spaces turned into underscores); a template containing no
placeholder passes through unchanged, and the spec's example produces
`text=Hi` and `url=https%3A%2F%2Fa.com`. -/
theorem share_links_spec :
    (∀ (providers : List (String × String)) (url : Option String)
        (title text : String) (tags : List String),
      (generate_share_links providers url title text tags).map
          ShareLink.provider_name = providers.map Prod.fst) ∧
    (∀ (nm template : String) (url : Option String) (title text : String)
        (tags : List String),
      ¬ ("{URL}".data <:+: template.data) →
      ¬ ("{TITLE}".data <:+: template.data) →
      ¬ ("{TEXT}".data <:+: template.data) →
      ¬ ("{TAGS}".data <:+: template.data) →
      generate_share_links [(nm, template)] url title text tags =
        [⟨nm, template⟩]) ∧
    generate_share_links [("X", "https://x.com/intent?text={TEXT}&url={URL}")]
      (some "https://a.com") "T" "Hi" [] =
      [⟨"X", "https://x.com/intent?text=Hi&url=https%3A%2F%2Fa.com"⟩] ∧
    generate_share_links [("X", "t={TAGS}")] none "T" "Hi" ["my tag", "b"] =
      [⟨"X", "t=%23my_tag%20%23b"⟩] ∧
    generate_share_links [("A", "a-{URL}"), ("B", "b-{URL}")] (some "x") "T" "t"
      [] = [⟨"A", "a-x"⟩, ⟨"B", "b-x"⟩] := by
  refine ⟨?_, ?_, by decide, by decide, by decide⟩
  · intro providers url title text tags
    unfold generate_share_links
    rw [List.map_map]
    rfl
  · intro nm template url title text tags h1 h2 h3 h4
    unfold generate_share_links
    dsimp only [List.map]
    rw [replaceAll_no_occurrence _ _ _ h1, replaceAll_no_occurrence _ _ _ h2,
      replaceAll_no_occurrence _ _ _ h3, replaceAll_no_occurrence _ _ _ h4]

theorem share_links_spec_witness :
    generate_share_links [("W", "https://w.example/share")] none "t" "x" [] =
      [⟨"W", "https://w.example/share"⟩] :=
  share_links_spec.2.1 "W" "https://w.example/share" none "t" "x" []
    (by decide) (by decide) (by decide) (by decide)

/-- A path with an extension always has a file stem (Rust's `extension()`
is `Some` only when the name has a non-leading dot, in which case
`file_stem()` returns the part before it). -/
theorem stem_isSome_of_ext (p : Option String)
    (h : (rustExtension p).isSome = true) : (rustFileStem p).isSome = true := by
  cases p with
  | none => simp [rustExtension] at h
  | some f =>
    unfold rustFileStem
    dsimp only
    split
    · rfl
    · rfl

/-- C10: extension dispatch keeps the `file_stem().unwrap()` calls safe:
any path with `Some` extension (in particular exactly `md` or `txt`, the
only ones dispatched to a strategy) has a file stem; every other path
makes `parse_file` return `UnsupportedFileType` without reaching the
stem unwraps; consequently `parse_file` can never panic on the stem
unwrap. -/
theorem parse_file_dispatch_safety :
    (∀ p : Option String, (rustExtension p).isSome = true →
      (rustFileStem p).isSome = true) ∧
    (∀ (render : String → String) (f : SourceFile)
        (ps : List (String × String)),
      (rustExtension f.fileName).getD "" ≠ "md" →
      (rustExtension f.fileName).getD "" ≠ "txt" →
      parse_file render f ps = .ok (.error (.unsupportedFileType f.pathStr))) ∧
    (∀ (render : String → String) (f : SourceFile)
        (ps : List (String × String)),
      parse_file render f ps ≠ .error .stemUnwrap) := by
  refine ⟨stem_isSome_of_ext, ?_, ?_⟩
  · intro render f ps h1 h2
    unfold parse_file
    rw [if_neg h1, if_neg h2]
  · intro render f ps
    unfold parse_file
    dsimp only
    have hext : ∀ e : String, (rustExtension f.fileName).getD "" = e → e ≠ "" →
        rustExtension f.fileName = some e := by
      intro e he hne
      cases hre : rustExtension f.fileName with
      | none =>
        rw [hre] at he
        exact absurd he.symm hne
      | some x =>
        rw [hre] at he
        rw [Option.getD_some] at he
        rw [he]
    by_cases h1 : (rustExtension f.fileName).getD "" = "md"
    · rw [if_pos h1]
      have hsome := stem_isSome_of_ext f.fileName
        (by rw [hext "md" h1 (by decide)]; rfl)
      obtain ⟨s, hs⟩ := Option.isSome_iff_exists.mp hsome
      unfold parse_markdown_file
      rw [hs]
      dsimp only
      split
      · simp
      · split
        · simp
        · split
          · simp
          · simp
    · rw [if_neg h1]
      by_cases h2 : (rustExtension f.fileName).getD "" = "txt"
      · rw [if_pos h2]
        have hsome := stem_isSome_of_ext f.fileName
          (by rw [hext "txt" h2 (by decide)]; rfl)
        obtain ⟨s, hs⟩ := Option.isSome_iff_exists.mp hsome
        unfold parse_text_file
        rw [hs]
        simp
      · rw [if_neg h2]
        simp

theorem parse_file_dispatch_safety_witness :
    (rustFileStem (some "2024-10-26-a.md")).isSome = true ∧
    parse_file (fun _ => "")
        { pathStr := "x.rs", fileName := some "x.rs", content := ""
          matter := .parsed none "", fsCreated := none,
          fsModified := ⟨2020, 1, 1⟩ } [] =
      .ok (.error (.unsupportedFileType "x.rs")) :=
  ⟨parse_file_dispatch_safety.1 (some "2024-10-26-a.md") (by decide),
    parse_file_dispatch_safety.2.1 (fun _ => "")
      { pathStr := "x.rs", fileName := some "x.rs", content := ""
        matter := .parsed none "", fsCreated := none, fsModified := ⟨2020, 1, 1⟩ }
      [] (by decide) (by decide)⟩
